import Mathlib

/-!
Verification of the clawdbot backtest orchestration core.

This file gives a shallow embedding of the task orchestration and
resilience layer (`backtest_system/core`): the result model, the
Supervisor error-classification and logging logic, the Orchestrator
retry loop and finalization scan, and the DatabaseAPI request
classification, LRU read cache and chunked date-range fallback.
Definitions are translated from the Python source; theorems settle the
frozen claims about that source.
-/

namespace Clawdbot

/-! ## Result and configuration model (backtest_system/core/models.py) -/

/-- A restricted model of Python values that can appear inside a
SkillResult data mapping.  Only the constructors the orchestration core
inspects are modelled; `truthy` mirrors Python truthiness. -/
inductive PyVal where
  | vnone
  | vbool (b : Bool)
  | vint (n : Int)
  | vstr (s : String)
  | vlist (xs : List String)
deriving DecidableEq, Repr

/-- Python truthiness for the modelled values. -/
def PyVal.truthy : PyVal → Bool
  | .vnone => false
  | .vbool b => b
  | .vint n => n != 0
  | .vstr s => !s.isEmpty
  | .vlist xs => !xs.isEmpty

/-- A Python dict with string keys, modelled as an association list in
insertion order (dict keys are unique). -/
abbrev PyDict := List (String × PyVal)

/-- Lookup mirroring `d.get(k)` returning `none` when the key is absent. -/
def PyDict.get (d : PyDict) (k : String) : Option PyVal :=
  (d.find? (fun p => p.1 = k)).map (·.2)

/-- SkillResult from models.py: success flag, optional data mapping,
optional error text, and the retry / skipped / halted flags, with the
same defaults as the Python dataclass. -/
structure SkillResult where
  success : Bool
  data : Option PyDict := none
  error : Option String := none
  retry : Bool := false
  skipped : Bool := false
  halted : Bool := false
deriving DecidableEq, Repr

/-! ## Error taxonomy (backtest_system/core/exceptions.py)

Each constructor carries the message text, standing for `str(error)`. -/

inductive ErrKind where
  | configurationError (msg : String)
  | networkError (msg : String)
  | dataValidationError (msg : String)
  | moduleError (msg : String)
  | otherError (msg : String)
deriving DecidableEq, Repr

/-- The message text of an exception, mirroring `str(error)`. -/
def ErrKind.text : ErrKind → String
  | .configurationError m => m
  | .networkError m => m
  | .dataValidationError m => m
  | .moduleError m => m
  | .otherError m => m

/-! ## Supervisor decision logic (backtest_system/core/supervisor.py)

The Supervisor is modelled for `non_interactive = True` (the interactive
branch performs console input and is outside the embedded fragment; the
claims address non-interactive mode).  `on_escalate` is the configured
default action string, `halt` / `retry` / `skip`. -/

/-- Supervisor._decide_action: NetworkError retries, DataValidationError,
ModuleError and every other kind escalate. -/
def decide_action : ErrKind → String
  | .networkError _ => "retry"
  | .dataValidationError _ => "escalate"
  | .moduleError _ => "escalate"
  | _ => "escalate"

/-- Supervisor._escalate_to_human, non-interactive branch: resolve by the
configured default; any default other than retry and skip halts, attaching
the original error text. -/
def escalate_to_human (on_escalate : String) (error : ErrKind) : SkillResult :=
  if on_escalate = "retry" then { success := false, retry := true }
  else if on_escalate = "skip" then { success := false, skipped := true }
  else { success := false, halted := true, error := some error.text }

/-- Supervisor.on_skill_error: classify the exception and produce the
terminal SkillResult for the chosen action. -/
def on_skill_error (on_escalate : String) (error : ErrKind) : SkillResult :=
  let action := decide_action error
  if action = "retry" then { success := false, retry := true }
  else if action = "skip" then { success := false, skipped := true }
  else if action = "escalate" then escalate_to_human on_escalate error
  else { success := false, halted := true }

/-- True when exactly one of the retry / skipped / halted flags is set. -/
def exactlyOneFlag (r : SkillResult) : Bool :=
  (r.retry && !r.skipped && !r.halted) ||
  (!r.retry && r.skipped && !r.halted) ||
  (!r.retry && !r.skipped && r.halted)

/-- True for the error kinds that Supervisor._decide_action escalates. -/
def escalatedKind : ErrKind → Bool
  | .networkError _ => false
  | _ => true

/-! ## Orchestrator retry loop (backtest_system/core/orchestrator.py) -/

/-- Outcome of one attempt to call a skill: either the skill returns (a
possibly absent result, `None` in Python) or it raises an exception. -/
inductive AttemptOutcome where
  | returns (r : Option SkillResult)
  | raises (e : ErrKind)
deriving DecidableEq, Repr

/-- A result of `None` is replaced by a plain failure, as in
Orchestrator._execute_skill. -/
def normalizeResult : Option SkillResult → SkillResult
  | some r => r
  | none => { success := false, error := some "Skill returned None" }

/-- The result the retry loop observes for one attempt outcome: the
normalized returned result, or the Supervisor decision on the raised
exception. -/
def attemptResult (on_escalate : String) : AttemptOutcome → SkillResult
  | .returns r => normalizeResult r
  | .raises e => on_skill_error on_escalate e

/-- Whether the retry loop moves on to the next attempt after this
outcome.  A returned result loops only when it is an unsuccessful,
non-halted, non-skipped result with the retry flag; a raised exception
loops only when the Supervisor decision is retry and neither halted nor
skipped. -/
def attemptContinues (on_escalate : String) : AttemptOutcome → Bool
  | .returns r =>
    let res := normalizeResult r
    !res.success && !(res.halted || res.skipped) && res.retry
  | .raises e =>
    let er := on_skill_error on_escalate e
    !er.halted && !er.skipped && er.retry

/-- The body of Orchestrator._execute_skill: up to `remaining` further
attempts, indexed from `attempt`, calling the skill behaviour and
consulting the Supervisor on exceptions.  Exhaustion yields the max
retries failure. -/
def execute_skill_loop (behave : Nat → AttemptOutcome) (on_escalate : String) :
    (attempt remaining : Nat) → SkillResult
  | _, 0 => { success := false, error := some "Max retries exceeded" }
  | attempt, remaining + 1 =>
    match behave attempt with
    | .returns r0 =>
      let result := normalizeResult r0
      if result.success then result
      else if result.halted || result.skipped then result
      else if result.retry then execute_skill_loop behave on_escalate (attempt + 1) remaining
      else result
    | .raises e =>
      let error_result := on_skill_error on_escalate e
      if error_result.halted then error_result
      else if error_result.skipped then error_result
      else if !error_result.retry then error_result
      else execute_skill_loop behave on_escalate (attempt + 1) remaining

/-- Orchestrator._execute_skill: a missing registry entry is a plain
failure; otherwise run the bounded retry loop. -/
def execute_skill (skills : List (String × (Nat → AttemptOutcome)))
    (skill_name : String) (on_escalate : String) (max_retries : Nat := 3) :
    SkillResult :=
  match skills.find? (fun p => p.1 = skill_name) with
  | none => { success := false, error := some ("Skill " ++ skill_name ++ " not found") }
  | some entry => execute_skill_loop entry.2 on_escalate 0 max_retries

/-! ## Task finalization (Orchestrator._finalize_task) -/

/-- The status scan over recorded step results (a `none` entry stands for
a falsy result object, which the loop skips): halted wins and stops the
scan with that step error text; otherwise any unsuccessful step makes the
status failed, keeping the error of the step seen last; otherwise
completed. -/
def finalize_scan : List (Option SkillResult) → String → Option String →
    String × Option String
  | [], status, err => (status, err)
  | none :: rest, status, err => finalize_scan rest status err
  | some r :: rest, status, err =>
    if r.halted then ("halted", r.error)
    else if !r.success then finalize_scan rest "failed" r.error
    else finalize_scan rest status err

/-- Orchestrator._finalize_task status computation over the recorded
steps. -/
def finalize_task (steps : List (Option SkillResult)) : String × Option String :=
  finalize_scan steps "completed" none

/-! ## HTTP request classification (DatabaseAPI._request)

The transport layer (requests) is modelled by its observable outcome: a
response with a status code, or a transport-level failure with no status.
`raise_for_status` raises an HTTPError exactly for statuses in
[400, 600); the except clauses then classify. -/

/-- Observable outcome of issuing one HTTP request over the transport. -/
inductive TransportOutcome where
  | response (status : Nat)
  | transportFailure (msg : String)
deriving DecidableEq, Repr

/-- Which statuses requests.Response.raise_for_status raises for. -/
def raise_for_status (status : Nat) : Bool :=
  decide (400 ≤ status ∧ status < 600)

/-- The error message built in DatabaseAPI._request for an HTTP error
(the optional response body suffix is omitted from the model). -/
def http_error_msg (method url : String) (status : Nat) : String :=
  method ++ " " ++ url ++ " -> HTTP " ++ toString status

/-- DatabaseAPI._request: a 4xx HTTPError becomes ModuleError, any other
HTTPError becomes NetworkError, a transport failure with no status
becomes NetworkError, and a non-raising status is returned as-is. -/
def request_classify (method url : String) :
    TransportOutcome → Except ErrKind Nat
  | .response s =>
    if raise_for_status s then
      if 400 ≤ s ∧ s < 500 then .error (.moduleError (http_error_msg method url s))
      else .error (.networkError (http_error_msg method url s))
    else .ok s
  | .transportFailure m => .error (.networkError (method ++ " " ++ url ++ " -> " ++ m))

/-! ## Continuous-series rows and the chunked fallback
(DatabaseAPI._get_continuous_chunked)

Dates are modelled as day ordinals (Nat); the ISO strings of the source
sort lexicographically in the same order as chronologically, so the
string sort over date keys is the numeric sort of the model.  A row is a
record with an optional trade_date key (absent or falsy dates are
skipped by the de-duplication) and an abstract payload distinguishing
rows beyond their date. -/

structure Row where
  trade_date : Option Nat
  payload : Nat
deriving DecidableEq, Repr

/-- One last-write-wins update of the by_date dict, keyed by trade date:
an existing key keeps its position with the new row, a fresh key is
appended in insertion order. -/
def upsert (m : List (Nat × Row)) (k : Nat) (v : Row) : List (Nat × Row) :=
  if (m.find? (fun p => p.1 = k)).isSome then
    m.map (fun p => if p.1 = k then (k, v) else p)
  else m ++ [(k, v)]

/-- The by_date dict built over all fetched rows: rows without a
trade_date are skipped, later rows overwrite earlier ones at the same
date key. -/
def build_by_date (rows : List Row) : List (Nat × Row) :=
  rows.foldl
    (fun m r =>
      match r.trade_date with
      | some td => upsert m td r
      | none => m)
    []

/-- The merge step at the end of _get_continuous_chunked: an empty row
list stays empty; otherwise build the by_date dict and emit its values
in ascending key order. -/
def dedup_sort (rows : List Row) : List Row :=
  if rows = [] then []
  else
    let m := build_by_date rows
    (List.insertionSort (· ≤ ·) (m.map (·.1))).filterMap
      (fun k => (m.find? (fun p => p.1 = k)).map (·.2))

/-- Outcome of fetching one chunk from the backend: rows, a
NetworkError whose root cause is a timeout, or any other error that
propagates unchanged. -/
inductive FetchOutcome where
  | ok (rows : List Row)
  | timeoutErr (e : ErrKind)
  | otherErr (e : ErrKind)
deriving DecidableEq, Repr

/-- The while loop of _get_continuous_chunked: walk the date range in
chunks of max 1 chunk_days days; a chunk that fails with a timeout while
chunk_days exceeds 45 is refetched by a recursive full chunked fetch at
half the chunk size floored at 30 (whose result is already merged), and
any other failure propagates.  The rows of all chunks are concatenated
in order. -/
def chunk_loop (fetch : Nat → Nat → FetchOutcome) :
    (chunk_days cur e : Nat) → Except ErrKind (List Row)
  | chunk_days, cur, e =>
    if h : cur ≤ e then
      let ce := min (cur + max 1 chunk_days - 1) e
      let rowsE : Except ErrKind (List Row) :=
        match fetch cur ce with
        | .ok rows => .ok rows
        | .timeoutErr err =>
          if h45 : 45 < chunk_days then
            (chunk_loop fetch (max 30 (chunk_days / 2)) cur ce).map dedup_sort
          else .error err
        | .otherErr err => .error err
      match rowsE with
      | .error err => .error err
      | .ok rows =>
        match chunk_loop fetch chunk_days (ce + 1) e with
        | .error err => .error err
        | .ok rest => .ok (rows ++ rest)
    else .ok []
termination_by chunk_days cur e => (chunk_days, e + 1 - cur)
decreasing_by
  · apply Prod.Lex.left
    have h2 : chunk_days / 2 < chunk_days := Nat.div_lt_self (by omega) (by omega)
    exact Nat.max_lt.mpr ⟨by omega, h2⟩
  · apply Prod.Lex.right
    have hce : cur ≤ min (cur + max 1 chunk_days - 1) e := by
      have h1 : 1 ≤ max 1 chunk_days := Nat.le_max_left 1 chunk_days
      exact le_min (by omega) h
    omega

/-- DatabaseAPI._get_continuous_chunked over already-parsed dates: run
the chunk loop and merge the collected rows. -/
def get_continuous_chunked (fetch : Nat → Nat → FetchOutcome)
    (chunk_days s e : Nat) : Except ErrKind (List Row) :=
  (chunk_loop fetch chunk_days s e).map dedup_sort

/-- Modelled from the spec: the recombination step in the words of §4.1,
merge all rows, de-duplicate by date key with last write winning, sort
ascending by date key.  Used as the reference side of the refinement
claim about the chunked fetch. -/
def spec_dedup_last_sort (rows : List Row) : List Row :=
  let keys := (rows.filterMap (·.trade_date)).dedup
  (List.insertionSort (· ≤ ·) keys).filterMap
    (fun k => (rows.filter (fun r => r.trade_date = some k)).getLast?)

/-- The rows a direct fetch of the range [s, e] returns, for a backend
whose full dated row list is L: the rows of L whose trade date lies in
the range, in backend order. -/
def rowsIn (L : List Row) (s e : Nat) : List Row :=
  L.filter (fun r =>
    match r.trade_date with
    | some d => decide (s ≤ d ∧ d ≤ e)
    | none => false)

/-- Fuel-indexed mirror of chunk_loop, used to state that the recursion
terminates within a bounded depth: every recursive call consumes one
unit of fuel, and exhausted fuel yields none. -/
def chunk_loop_fuel (fetch : Nat → Nat → FetchOutcome) :
    (fuel chunk_days cur e : Nat) → Option (Except ErrKind (List Row))
  | 0, _, _, _ => none
  | fuel + 1, chunk_days, cur, e =>
    if cur ≤ e then
      let ce := min (cur + max 1 chunk_days - 1) e
      let rowsE : Option (Except ErrKind (List Row)) :=
        match fetch cur ce with
        | .ok rows => some (.ok rows)
        | .timeoutErr err =>
          if 45 < chunk_days then
            (chunk_loop_fuel fetch fuel (max 30 (chunk_days / 2)) cur ce).map
              (·.map dedup_sort)
          else some (.error err)
        | .otherErr err => some (.error err)
      match rowsE with
      | none => none
      | some (.error err) => some (.error err)
      | some (.ok rows) =>
        match chunk_loop_fuel fetch fuel chunk_days (ce + 1) e with
        | none => none
        | some (.error err) => some (.error err)
        | some (.ok rest) => some (.ok (rows ++ rest))
    else some (.ok [])

/-! ## Continuous-series LRU cache (DatabaseAPI.get_continuous)

The cache is an OrderedDict keyed by the exact request tuple; the list
order is recency order, head = least recently used, tail = most recently
used.  A hit pops the entry and reinserts it at the tail; a miss inserts
at the tail and evicts the head when the size exceeds the capacity
of 64. -/

/-- The exact request key: normalized base symbol, the optional start
and end date params, the optional limit. -/
abbrev CacheKey := String × Option String × Option String × Option Int

/-- Params are included only for truthy date strings, so an empty string
collapses to absent, as in the params dict construction. -/
def norm_opt_str : Option String → Option String
  | some s => if s.isEmpty then none else some s
  | none => none

/-- The cache key built in get_continuous: the base symbol is stripped
and uppercased, the dates pass through params truthiness, the limit is
kept when present. -/
def continuous_cache_key (base_symbol : String) (start_date end_date : Option String)
    (limit : Option Int) : CacheKey :=
  (base_symbol.trim.toUpper, norm_opt_str start_date, norm_opt_str end_date, limit)

/-- The cache state: entries in recency order, least recently used
first. -/
abbrev ContCache := List (CacheKey × List Row)

/-- Membership test and value lookup, mirroring `cache_key in dict` plus
the subsequent `pop` read. -/
def cache_lookup (c : ContCache) (k : CacheKey) : Option (List Row) :=
  (c.find? (fun p => p.1 = k)).map (·.2)

/-- OrderedDict.pop(key): remove the entry of this key (keys are unique
in a dict, so removing the first occurrence is removal of the entry). -/
def cache_pop (c : ContCache) (k : CacheKey) : ContCache :=
  c.eraseP (fun p => p.1 = k)

/-- The maximum number of cached continuous-series results. -/
def continuous_cache_max : Nat := 64

/-- Result of one modelled get_continuous call: the returned rows, the
cache afterwards, and whether the network was reached. -/
structure GetContResult where
  rows : List Row
  cache : ContCache
  network_called : Bool
deriving DecidableEq, Repr

/-- DatabaseAPI.get_continuous cache discipline for one call whose fetch
(direct or chunked) would succeed with `fetched`: a hit returns the
cached rows, promotes the entry to most recently used and skips the
network; a miss fetches, inserts at the most-recently-used end, and
evicts the least-recently-used head once more than 64 entries are
present. -/
def get_continuous_model (c : ContCache) (key : CacheKey) (fetched : List Row) :
    GetContResult :=
  match cache_lookup c key with
  | some data => ⟨data, cache_pop c key ++ [(key, data)], false⟩
  | none =>
    let c1 := c ++ [(key, fetched)]
    let c2 := if continuous_cache_max < c1.length then c1.drop 1 else c1
    ⟨fetched, c2, true⟩

/-! ## Supervisor logging pipeline (Supervisor._log, _append_local_log,
set_task_id)

The claims about logging concern which sinks receive which entries, so a
log entry is modelled as its routing-relevant record; the JSON
serialization and truncation of the payload are carried as an abstract
payload string.  The remote sink is an oracle indexed by how many remote
writes have been attempted so far in the run. -/

structure LogEntry where
  task_id : Option String
  skill_name : String
  event : String
  payload : Option String
deriving DecidableEq, Repr

/-- Outcome of one remote write_log call: a returned boolean, or a
raised exception. -/
inductive RemoteWriteOutcome where
  | ok (success : Bool)
  | raises (msg : String)
deriving DecidableEq, Repr

/-- The run-scoped Supervisor logging state: current task id, the
remote-logging flag, the in-memory run log, the content of the local
append-only file, and the entries for which a remote write was
attempted (in attempt order). -/
structure SupLogState where
  current_task_id : Option String
  remote_logging_enabled : Bool
  execution_log : List LogEntry
  local_log_file : List LogEntry
  remote_attempts : List LogEntry
deriving DecidableEq, Repr

/-- Supervisor.set_task_id: record the task id and re-enable remote
logging. -/
def set_task_id (task_id : String) (s : SupLogState) : SupLogState :=
  { s with current_task_id := some task_id, remote_logging_enabled := true }

/-- Supervisor._log for one event: append the entry to the in-memory run
log, then to the local file when a log directory is configured and a
task id is set, then attempt a remote write when a task id is set and
remote logging is enabled; an exception from the remote write disables
remote logging, a returned boolean leaves it untouched. -/
def log_step (log_dir_configured : Bool) (remote : Nat → RemoteWriteOutcome)
    (s : SupLogState) (skill_name event : String) (payload : Option String) :
    SupLogState :=
  let entry : LogEntry := ⟨s.current_task_id, skill_name, event, payload⟩
  let s1 := { s with execution_log := s.execution_log ++ [entry] }
  let s2 :=
    if log_dir_configured && s1.current_task_id.isSome then
      { s1 with local_log_file := s1.local_log_file ++ [entry] }
    else s1
  if s2.current_task_id.isSome && s2.remote_logging_enabled then
    let s3 := { s2 with remote_attempts := s2.remote_attempts ++ [entry] }
    match remote s2.remote_attempts.length with
    | .ok _ => s3
    | .raises _ => { s3 with remote_logging_enabled := false }
  else s2

/-- A log event as handed to Supervisor._log (the skill name, event kind
and serialized payload). -/
structure LogEvent where
  skill_name : String
  event : String
  payload : Option String
deriving DecidableEq, Repr

/-- Process a sequence of log events through Supervisor._log. -/
def run_log (log_dir_configured : Bool) (remote : Nat → RemoteWriteOutcome)
    (s : SupLogState) (events : List LogEvent) : SupLogState :=
  events.foldl (fun st ev => log_step log_dir_configured remote st ev.skill_name ev.event ev.payload) s

/-- The entry Supervisor._log builds for an event under a given task
id. -/
def entry_of_event (task_id : Option String) (ev : LogEvent) : LogEntry :=
  ⟨task_id, ev.skill_name, ev.event, ev.payload⟩

/-! ## Pipeline control flow after validation
(Orchestrator.run_smart_mode / run_specified_mode)

Both modes share the validation gate: a failed validation finalizes
immediately; a successful validation with a data mapping whose truthy
passed value exists narrows the positions, and a falsy passed value
finalizes immediately with only the validation step recorded.  The
later stages differ between the modes only in how the analyze results
are produced, which the gate claims do not exercise; the analyze
behaviour is therefore a per-position result function. -/

/-- One recorded pipeline step. -/
structure StepRec where
  skill : String
  position : Option String
  result : SkillResult
deriving DecidableEq, Repr

/-- Finalization over recorded pipeline steps. -/
def finalize_steps (steps : List StepRec) : String × Option String :=
  finalize_task (steps.map (fun st => some st.result))

/-- The trace of one run: the recorded steps, whether each later stage
ran, and the finalized status. -/
structure RunTrace where
  steps : List StepRec
  analyze_ran : Bool
  aggregate_ran : Bool
  report_ran : Bool
  final_status : String × Option String
deriving DecidableEq, Repr

/-- The positions a truthy passed value stands for downstream (the
modelled data values are iterable only when they are lists). -/
def passedPositions (v : PyVal) (fallback : List String) : List String :=
  match v with
  | .vlist xs => xs
  | _ => fallback

/-- The validation gate of both run modes: a falsy or missing data dict
keeps the configured positions; a non-empty data dict replaces them by
the truthy passed value, and stops the run (returning none) when the
passed value is falsy or absent. -/
def positions_after_validate (validate_result : SkillResult)
    (config_positions : List String) : Option (List String) :=
  match validate_result.data with
  | some d =>
    if d.isEmpty then some config_positions
    else
      let passed := (PyDict.get d "passed").getD .vnone
      let passed := if passed.truthy then passed else .vlist []
      if passed.truthy then some (passedPositions passed config_positions)
      else none
  | none => some config_positions

/-- The shared control flow of run_smart_mode and run_specified_mode
from the validation step onward, with the per-position analyze results,
the aggregate result and the report result supplied as behaviours. -/
def run_mode_model (validate_result : SkillResult)
    (analyze : String → SkillResult) (aggregate_result report_result : SkillResult)
    (config_positions : List String) : RunTrace :=
  let vstep : StepRec := ⟨"validate_data", none, validate_result⟩
  if !validate_result.success then
    ⟨[vstep], false, false, false, finalize_steps [vstep]⟩
  else
    match positions_after_validate validate_result config_positions with
    | none => ⟨[vstep], false, false, false, finalize_steps [vstep]⟩
    | some positions =>
      let asteps := positions.map (fun p => (⟨"backtest_strategy", some p, analyze p⟩ : StepRec))
      let steps := vstep :: asteps ++
        [⟨"backtest_portfolio", none, aggregate_result⟩,
         ⟨"generate_report", none, report_result⟩]
      ⟨steps, true, true, true, finalize_steps steps⟩

/-- run_smart_mode from the validation step onward (analyze results come
from the worker pool, converted to SkillResults). -/
def run_smart_model (validate_result : SkillResult)
    (analyze : String → SkillResult) (aggregate_result report_result : SkillResult)
    (config_positions : List String) : RunTrace :=
  run_mode_model validate_result analyze aggregate_result report_result config_positions

/-- run_specified_mode from the validation step onward (analyze results
come from the sequential retry loop). -/
def run_specified_model (validate_result : SkillResult)
    (analyze : String → SkillResult) (aggregate_result report_result : SkillResult)
    (config_positions : List String) : RunTrace :=
  run_mode_model validate_result analyze aggregate_result report_result config_positions

/-! # Theorems -/

/-- C2: the Supervisor escalation decision table.  A NetworkError always
yields a retry-flagged SkillResult regardless of the configured default;
DataValidationError, ModuleError and unrecognized kinds are escalated
and resolved in non-interactive mode by the configured default — retry,
skip, or halt carrying the original error text; and every table entry is
an unsuccessful SkillResult with exactly one of the three flags set. -/
theorem supervisor_escalation_table :
    (∀ d m, on_skill_error d (.networkError m) = { success := false, retry := true }) ∧
    (∀ e, escalatedKind e = true →
      on_skill_error "retry" e = { success := false, retry := true } ∧
      on_skill_error "skip" e = { success := false, skipped := true } ∧
      on_skill_error "halt" e = { success := false, halted := true, error := some e.text }) ∧
    (∀ d e, (d = "retry" ∨ d = "skip" ∨ d = "halt") →
      (on_skill_error d e).success = false ∧ exactlyOneFlag (on_skill_error d e) = true) := by
  refine ⟨?_, ?_, ?_⟩
  · intro d m
    simp [on_skill_error, decide_action]
  · intro e he
    cases e <;> simp_all [on_skill_error, decide_action, escalate_to_human,
      escalatedKind, ErrKind.text]
  · intro d e hd
    cases e <;>
      rcases hd with h | h | h <;>
        subst h <;>
          simp [on_skill_error, decide_action, escalate_to_human, exactlyOneFlag]

/-- Closed instance of the C2 table: DataValidationError under
non-interactive default skip yields the skipped-only result. -/
theorem supervisor_escalation_table_witness :
    escalatedKind (.dataValidationError "bad rows") = true ∧
    on_skill_error "skip" (.dataValidationError "bad rows") =
      { success := false, skipped := true } :=
  ⟨by decide,
   (supervisor_escalation_table.2.1 (.dataValidationError "bad rows") (by decide)).2.1⟩

/-- C6: DatabaseAPI._request classifies a 4xx response as ModuleError, a
5xx response or a transport failure without a status as NetworkError,
and returns 2xx responses without raising; the non-retryable band is
exactly 400 ≤ status < 500. -/
theorem request_classification_boundary (method url : String) (s : Nat) :
    (400 ≤ s ∧ s < 500 →
      request_classify method url (.response s) =
        .error (.moduleError (http_error_msg method url s))) ∧
    (500 ≤ s ∧ s < 600 →
      request_classify method url (.response s) =
        .error (.networkError (http_error_msg method url s))) ∧
    (∀ m, request_classify method url (.transportFailure m) =
        .error (.networkError (method ++ " " ++ url ++ " -> " ++ m))) ∧
    (200 ≤ s ∧ s < 300 → request_classify method url (.response s) = .ok s) := by
  refine ⟨?_, ?_, ?_, ?_⟩
  · intro h
    have h1 : raise_for_status s = true := by
      simp only [raise_for_status, decide_eq_true_eq]
      omega
    simp only [request_classify, h1, if_true]
    rw [if_pos (by omega)]
  · intro h
    have h1 : raise_for_status s = true := by
      simp only [raise_for_status, decide_eq_true_eq]
      omega
    simp only [request_classify, h1, if_true]
    rw [if_neg (by omega)]
  · intro m
    rfl
  · intro h
    have h1 : raise_for_status s = false := by
      simp only [raise_for_status, decide_eq_false_iff_not]
      omega
    simp [request_classify, h1]

/-- Closed instance of the C6 boundary: 404 is a ModuleError, 503 and a
transport failure are NetworkErrors, 200 passes through. -/
theorem request_classification_boundary_witness :
    (400 ≤ 404 ∧ 404 < 500) ∧
    request_classify "GET" "u" (.response 404) =
      .error (.moduleError (http_error_msg "GET" "u" 404)) :=
  ⟨by decide, (request_classification_boundary "GET" "u" 404).1 (by decide)⟩

/-- Characterization of the finalization scan for any starting
accumulator: the first halted step wins with its error text and stops
the scan, otherwise any unsuccessful step turns the accumulator into a
failure carrying the error of the last unsuccessful step. -/
theorem finalize_scan_characterization (steps : List (Option SkillResult)) :
    ∀ status err, finalize_scan steps status err =
      match (steps.filterMap id).find? (fun r => r.halted) with
      | some r => ("halted", r.error)
      | none =>
        match ((steps.filterMap id).filter (fun r => !r.success)).getLast? with
        | some r => ("failed", r.error)
        | none => (status, err) := by
  induction steps with
  | nil => intro status err; rfl
  | cons hd tl ih =>
    intro status err
    cases hd with
    | none => simpa [finalize_scan] using ih status err
    | some r =>
      by_cases hh : r.halted
      · simp [finalize_scan, hh, List.find?]
      · by_cases hs : r.success
        · have hns : (!r.success) = false := by simp [hs]
          simp [finalize_scan, hh, hs, List.find?, List.filter, hns, ih status err]
        · have hns : (!r.success) = true := by simp [hs]
          have hstep : finalize_scan (some r :: tl) status err =
              finalize_scan tl "failed" r.error := by
            simp [finalize_scan, hh, hns]
          have hfm : List.filterMap id (some r :: tl) = r :: List.filterMap id tl := by
            simp
          rw [hstep, ih "failed" r.error, hfm,
            List.find?_cons_of_neg _ (by simp [hh])]
          cases hfind : (tl.filterMap id).find? (fun r => r.halted) with
          | some r2 => simp
          | none =>
            simp only
            cases hfl : (tl.filterMap id).filter (fun r => !r.success) with
            | nil => simp [List.filter_cons, hns, hfl]
            | cons a b =>
              simp [List.filter_cons, hns, hfl, List.getLast?_cons_cons,
                List.getLast?_cons]

/-- C5: task finalization computes halted — with the error text of the
first halted step, scanning no further — if any step halted; otherwise
failed if any step is unsuccessful; otherwise completed.  A halted step
followed by a later failed step therefore reports halted with the halted
step error text. -/
theorem finalize_task_precedence (steps : List (Option SkillResult)) :
    finalize_task steps =
      match (steps.filterMap id).find? (fun r => r.halted) with
      | some r => ("halted", r.error)
      | none =>
        match ((steps.filterMap id).filter (fun r => !r.success)).getLast? with
        | some r => ("failed", r.error)
        | none => ("completed", none) := by
  simpa [finalize_task] using finalize_scan_characterization steps "completed" none

/-- A terminal attempt outcome makes the retry loop return its observed
result at once. -/
theorem execute_skill_loop_terminal (behave : Nat → AttemptOutcome) (d : String)
    (attempt remaining : Nat)
    (hterm : attemptContinues d (behave attempt) = false) :
    execute_skill_loop behave d attempt (remaining + 1) =
      attemptResult d (behave attempt) := by
  cases hb : behave attempt with
  | returns r0 =>
    simp only [attemptContinues, hb] at hterm
    simp only [execute_skill_loop, hb, attemptResult]
    cases h1 : (normalizeResult r0).success <;>
      cases h2 : (normalizeResult r0).halted <;>
        cases h3 : (normalizeResult r0).skipped <;>
          cases h4 : (normalizeResult r0).retry <;>
            simp_all
  | raises e =>
    simp only [attemptContinues, hb] at hterm
    simp only [execute_skill_loop, hb, attemptResult]
    cases h2 : (on_skill_error d e).halted <;>
      cases h3 : (on_skill_error d e).skipped <;>
        cases h4 : (on_skill_error d e).retry <;>
          simp_all

/-- A continuing attempt outcome makes the retry loop move to the next
attempt. -/
theorem execute_skill_loop_continues (behave : Nat → AttemptOutcome) (d : String)
    (attempt remaining : Nat)
    (hcont : attemptContinues d (behave attempt) = true) :
    execute_skill_loop behave d attempt (remaining + 1) =
      execute_skill_loop behave d (attempt + 1) remaining := by
  cases hb : behave attempt with
  | returns r0 =>
    simp only [attemptContinues, hb] at hcont
    simp only [execute_skill_loop, hb]
    cases h1 : (normalizeResult r0).success <;>
      cases h2 : (normalizeResult r0).halted <;>
        cases h3 : (normalizeResult r0).skipped <;>
          cases h4 : (normalizeResult r0).retry <;>
            simp_all
  | raises e =>
    simp only [attemptContinues, hb] at hcont
    simp only [execute_skill_loop, hb]
    cases h2 : (on_skill_error d e).halted <;>
      cases h3 : (on_skill_error d e).skipped <;>
        cases h4 : (on_skill_error d e).retry <;>
          simp_all

/-- The retry loop returns the observed result of the first attempt that
does not continue, provided it happens within the remaining budget. -/
theorem execute_skill_loop_first_terminal (behave : Nat → AttemptOutcome)
    (d : String) :
    ∀ remaining attempt k, k < remaining →
      (∀ i, i < k → attemptContinues d (behave (attempt + i)) = true) →
      attemptContinues d (behave (attempt + k)) = false →
      execute_skill_loop behave d attempt remaining =
        attemptResult d (behave (attempt + k)) := by
  intro remaining
  induction remaining with
  | zero => intro attempt k hk; omega
  | succ n ih =>
    intro attempt k hk hcont hterm
    cases k with
    | zero =>
      simpa using execute_skill_loop_terminal behave d attempt n (by simpa using hterm)
    | succ j =>
      have h0 : attemptContinues d (behave attempt) = true := by
        simpa using hcont 0 (by omega)
      rw [execute_skill_loop_continues behave d attempt n h0]
      have := ih (attempt + 1) j (by omega)
        (fun i hi => by
          have := hcont (i + 1) (by omega)
          simpa [Nat.add_assoc, Nat.add_comm 1 i] using this)
        (by simpa [Nat.add_assoc, Nat.add_comm 1 j] using hterm)
      simpa [Nat.add_assoc, Nat.add_comm 1 j] using this

/-- The retry loop exhausts the budget into the max-retries failure when
every attempt continues. -/
theorem execute_skill_loop_exhausts (behave : Nat → AttemptOutcome) (d : String) :
    ∀ remaining attempt,
      (∀ i, i < remaining → attemptContinues d (behave (attempt + i)) = true) →
      execute_skill_loop behave d attempt remaining =
        { success := false, error := some "Max retries exceeded" } := by
  intro remaining
  induction remaining with
  | zero => intro attempt _; rfl
  | succ n ih =>
    intro attempt hcont
    have h0 : attemptContinues d (behave attempt) = true := by
      simpa using hcont 0 (by omega)
    rw [execute_skill_loop_continues behave d attempt n h0]
    exact ih (attempt + 1)
      (fun i hi => by
        have := hcont (i + 1) (by omega)
        simpa [Nat.add_assoc, Nat.add_comm 1 i] using this)

/-- C1: the bounded retry loop of Orchestrator._execute_skill, for a
registered skill.  It returns the observed result of the first attempt
whose outcome is terminal — a success, a halted or skipped result, or a
plain failure without the retry flag, which is returned immediately and
never retried — and only retry-flagged outcomes cause another attempt; a
skill that continues on exactly k < max_retries attempts and is then
terminal yields that attempt result (in particular the successful
outcome when attempt k succeeds), while a skill whose every attempt
requests retry exhausts all max_retries attempts and yields the failure
with error text Max retries exceeded. -/
theorem execute_skill_retry_loop (skills : List (String × (Nat → AttemptOutcome)))
    (skill_name d : String) (behave : Nat → AttemptOutcome) (max_retries : Nat)
    (hreg : skills.find? (fun p => p.1 = skill_name) = some (skill_name, behave)) :
    (∀ k, k < max_retries →
      (∀ i, i < k → attemptContinues d (behave i) = true) →
      attemptContinues d (behave k) = false →
      execute_skill skills skill_name d max_retries = attemptResult d (behave k)) ∧
    ((∀ i, i < max_retries → attemptContinues d (behave i) = true) →
      execute_skill skills skill_name d max_retries =
        { success := false, error := some "Max retries exceeded" }) := by
  constructor
  · intro k hk hcont hterm
    rw [execute_skill, hreg]
    simpa using execute_skill_loop_first_terminal behave d max_retries 0 k hk
      (by simpa using hcont) (by simpa using hterm)
  · intro hcont
    rw [execute_skill, hreg]
    exact execute_skill_loop_exhausts behave d max_retries 0 (by simpa using hcont)

/-- A behaviour that requests retry on the first two attempts and then
succeeds. -/
def retryTwiceThenSucceed : Nat → AttemptOutcome := fun i =>
  if i < 2 then .returns (some { success := false, retry := true })
  else .returns (some { success := true })

/-- Closed instance of C1: with max_retries = 3, a skill that requests
retry twice and then succeeds yields the successful outcome. -/
theorem execute_skill_retry_loop_witness :
    execute_skill [("validate_data", retryTwiceThenSucceed)] "validate_data" "halt" 3 =
      attemptResult "halt" (retryTwiceThenSucceed 2) :=
  (execute_skill_retry_loop [("validate_data", retryTwiceThenSucceed)]
      "validate_data" "halt" retryTwiceThenSucceed 3 (by rfl)).1 2 (by decide)
    (by decide) (by decide)

/-- Popping a key from a cache with pairwise-distinct keys keeps the
keys pairwise distinct and removes the key entirely. -/
theorem cache_pop_keys (c : ContCache) (key : CacheKey)
    (hn : (c.map (·.1)).Nodup) :
    ((cache_pop c key).map (·.1)).Nodup ∧ key ∉ (cache_pop c key).map (·.1) := by
  induction c with
  | nil => simp [cache_pop]
  | cons p rest ih =>
    simp only [List.map_cons, List.nodup_cons] at hn
    obtain ⟨hp, hrest⟩ := hn
    by_cases hk : p.1 = key
    · have : cache_pop (p :: rest) key = rest := by
        simp [cache_pop, List.eraseP_cons_of_pos, hk]
      rw [this]
      exact ⟨hrest, by rw [← hk]; exact hp⟩
    · have hpop : cache_pop (p :: rest) key = p :: cache_pop rest key := by
        simp [cache_pop, List.eraseP_cons_of_neg, hk]
      obtain ⟨ihn, ihk⟩ := ih hrest
      have hsub : List.Sublist ((cache_pop rest key).map (·.1)) (rest.map (·.1)) :=
        List.Sublist.map (·.1) (List.eraseP_sublist rest)
      rw [hpop]
      refine ⟨?_, ?_⟩
      · simp only [List.map_cons, List.nodup_cons]
        exact ⟨fun hmem => hp (hsub.subset hmem), ihn⟩
      · simp only [List.map_cons, List.mem_cons, not_or]
        exact ⟨fun h => hk h.symm, ihk⟩

/-- A successful cache lookup names an entry of the cache with that
key. -/
theorem cache_lookup_some_mem (c : ContCache) (key : CacheKey) (v : List Row)
    (h : cache_lookup c key = some v) : (key, v) ∈ c := by
  simp only [cache_lookup, Option.map_eq_some'] at h
  obtain ⟨p, hfind, hv⟩ := h
  have hmem := List.mem_of_find?_eq_some hfind
  have hpred := List.find?_some hfind
  simp only [decide_eq_true_eq] at hpred
  have : p = (key, v) := by
    cases p
    simp_all
  rwa [this] at hmem

/-- C7: the continuous-series read cache of DatabaseAPI.get_continuous
is LRU with capacity 64.  A call whose exact request key is cached
returns the cached rows without a network call and promotes the entry to
the most-recently-used end; a miss inserts the fetched rows at the
most-recently-used end and, once more than 64 entries are present,
evicts the head of the recency order, which is the least-recently-used
entry (promotions included, because hits reinsert at the tail);
the capacity bound and key distinctness are preserved by every call. -/
theorem continuous_cache_lru (c : ContCache) (key : CacheKey)
    (fetched v : List Row) :
    (cache_lookup c key = some v →
      get_continuous_model c key fetched =
        ⟨v, cache_pop c key ++ [(key, v)], false⟩) ∧
    (cache_lookup c key = none → c.length ≤ continuous_cache_max →
      get_continuous_model c key fetched =
        ⟨fetched,
          (if c.length = continuous_cache_max then c.drop 1 else c) ++ [(key, fetched)],
          true⟩) ∧
    (c.length ≤ continuous_cache_max →
      (get_continuous_model c key fetched).cache.length ≤ continuous_cache_max) ∧
    ((c.map (·.1)).Nodup →
      ((get_continuous_model c key fetched).cache.map (·.1)).Nodup) := by
  refine ⟨?_, ?_, ?_, ?_⟩
  · intro h
    simp [get_continuous_model, h]
  · intro h hlen
    simp only [get_continuous_model, h]
    have hlen1 : (c ++ [(key, fetched)]).length = c.length + 1 := by simp
    by_cases hfull : c.length = continuous_cache_max
    · rw [if_pos (by rw [hlen1, hfull]; omega), if_pos hfull,
        List.drop_append_of_le_length (by rw [hfull]; decide)]
    · rw [if_neg (by
        rw [hlen1]
        simp only [continuous_cache_max] at hfull hlen ⊢
        omega), if_neg hfull]
  · intro hlen
    cases hl : cache_lookup c key with
    | some v0 =>
      simp only [get_continuous_model, hl]
      have hmem := cache_lookup_some_mem c key v0 hl
      have hlenp : (c.eraseP (fun p => p.1 = key)).length + 1 = c.length :=
        List.length_eraseP_add_one hmem (by simp)
      simp only [List.length_append, List.length_cons, List.length_nil, cache_pop]
      omega
    | none =>
      simp only [get_continuous_model, hl]
      have hlen1 : (c ++ [(key, fetched)]).length = c.length + 1 := by simp
      by_cases hlt : continuous_cache_max < (c ++ [(key, fetched)]).length
      · rw [if_pos hlt]
        simp only [List.length_drop, List.length_append, List.length_cons,
          List.length_nil]
        omega
      · rw [if_neg hlt]
        rw [hlen1] at hlt
        rw [hlen1]
        omega
  · intro hn
    cases hl : cache_lookup c key with
    | some v0 =>
      simp only [get_continuous_model, hl]
      obtain ⟨hpn, hkn⟩ := cache_pop_keys c key hn
      simp only [List.map_append, List.map_cons, List.map_nil]
      rw [List.nodup_append]
      refine ⟨hpn, List.nodup_singleton key, ?_⟩
      intro a ha hb
      simp only [List.mem_singleton] at hb
      subst hb
      exact hkn ha
    | none =>
      simp only [get_continuous_model, hl]
      have hkey : key ∉ c.map (·.1) := by
        intro hmem
        simp only [List.mem_map] at hmem
        obtain ⟨p, hp, hpk⟩ := hmem
        have := List.find?_eq_none.mp (by
          simpa only [cache_lookup, Option.map_eq_none'] using hl) p hp
        simp [hpk] at this
      have hnodup : ((c ++ [(key, fetched)]).map (·.1)).Nodup := by
        simp only [List.map_append, List.map_cons, List.map_nil]
        rw [List.nodup_append]
        refine ⟨hn, List.nodup_singleton key, ?_⟩
        intro a ha hb
        simp only [List.mem_singleton] at hb
        subst hb
        exact hkey ha
      by_cases hlt : continuous_cache_max < (c ++ [(key, fetched)]).length
      · rw [if_pos hlt]
        exact hnodup.sublist
          (List.Sublist.map (·.1) (List.drop_sublist 1 (c ++ [(key, fetched)])))
      · rw [if_neg hlt]
        exact hnodup

/-- Closed instance of C7: a hit on the older of two cached keys returns
its rows without a network call and promotes it past the newer entry. -/
theorem continuous_cache_lru_witness :
    cache_lookup [((("CU", none, none, none) : CacheKey), [⟨some 1, 10⟩]),
        ((("AL", none, none, none) : CacheKey), [⟨some 2, 20⟩])]
        ("CU", none, none, none) = some [⟨some 1, 10⟩] ∧
    get_continuous_model
        [((("CU", none, none, none) : CacheKey), [⟨some 1, 10⟩]),
         ((("AL", none, none, none) : CacheKey), [⟨some 2, 20⟩])]
        ("CU", none, none, none) [] =
      ⟨[⟨some 1, 10⟩],
       [((("AL", none, none, none) : CacheKey), [⟨some 2, 20⟩]),
        ((("CU", none, none, none) : CacheKey), [⟨some 1, 10⟩])], false⟩ := by
  refine ⟨by decide, ?_⟩
  have h := (continuous_cache_lru
    [((("CU", none, none, none) : CacheKey), [⟨some 1, 10⟩]),
     ((("AL", none, none, none) : CacheKey), [⟨some 2, 20⟩])]
    ("CU", none, none, none) [] [⟨some 1, 10⟩]).1 (by decide)
  simpa [cache_pop] using h

/-- C10: in both run modes, a successful validation result whose data
mapping carries a passed key with a falsy value stops the pipeline right
after validation — analyze, aggregate and report never run, the only
recorded step is the validation step — and the task finalizes as
completed (a successful result is non-halted per the SkillResult
invariant of the data model). -/
theorem validation_empty_passed_stops (validate_result : SkillResult)
    (analyze : String → SkillResult) (agg rep : SkillResult)
    (config_positions : List String) (d : PyDict) (v : PyVal)
    (hsucc : validate_result.success = true)
    (hnothalt : validate_result.halted = false)
    (hdata : validate_result.data = some d)
    (hget : PyDict.get d "passed" = some v)
    (hfalsy : v.truthy = false) :
    run_smart_model validate_result analyze agg rep config_positions =
      ⟨[⟨"validate_data", none, validate_result⟩], false, false, false,
        ("completed", none)⟩ ∧
    run_specified_model validate_result analyze agg rep config_positions =
      ⟨[⟨"validate_data", none, validate_result⟩], false, false, false,
        ("completed", none)⟩ := by
  have hdne : d.isEmpty = false := by
    cases d with
    | nil => simp [PyDict.get] at hget
    | cons a b => rfl
  have hgate : positions_after_validate validate_result config_positions = none := by
    simp only [positions_after_validate, hdata, hdne, Bool.false_eq_true, if_false,
      hget, Option.getD_some, hfalsy, if_neg]
    simp [hfalsy, PyVal.truthy]
  have hfin : finalize_steps [⟨"validate_data", none, validate_result⟩] =
      ("completed", none) := by
    simp [finalize_steps, finalize_task, finalize_scan, hnothalt, hsucc]
  have hrun : run_mode_model validate_result analyze agg rep config_positions =
      ⟨[⟨"validate_data", none, validate_result⟩], false, false, false,
        ("completed", none)⟩ := by
    rw [run_mode_model]
    rw [hsucc]
    simp only [Bool.not_true, Bool.false_eq_true, if_false, hgate, hfin]
  exact ⟨hrun, hrun⟩

/-- Closed instance of C10: a successful validation with an empty passed
list stops both pipelines after the validation step with status
completed. -/
theorem validation_empty_passed_stops_witness :
    run_smart_model
        { success := true, data := some [("passed", PyVal.vlist [])] }
        (fun _ => { success := true }) { success := true } { success := true }
        ["CU0", "AL0"] =
      ⟨[⟨"validate_data", none,
          { success := true, data := some [("passed", PyVal.vlist [])] }⟩],
        false, false, false, ("completed", none)⟩ :=
  (validation_empty_passed_stops
    { success := true, data := some [("passed", PyVal.vlist [])] }
    (fun _ => { success := true }) { success := true } { success := true }
    ["CU0", "AL0"] [("passed", PyVal.vlist [])] (PyVal.vlist [])
    rfl rfl rfl (by decide) rfl).1

/-- The Supervisor state as constructed per run, before set_task_id. -/
def initial_sup_state : SupLogState :=
  ⟨none, true, [], [], []⟩

/-- Unfolding run_log over an empty event list. -/
theorem run_log_nil (ldc : Bool) (remote : Nat → RemoteWriteOutcome)
    (s : SupLogState) : run_log ldc remote s [] = s := rfl

/-- Unfolding run_log over a cons. -/
theorem run_log_cons (ldc : Bool) (remote : Nat → RemoteWriteOutcome)
    (s : SupLogState) (e : LogEvent) (rest : List LogEvent) :
    run_log ldc remote s (e :: rest) =
      run_log ldc remote (log_step ldc remote s e.skill_name e.event e.payload) rest :=
  rfl

/-- Once remote logging is disabled, every further event is appended to
the run log and the local file and no remote write is attempted. -/
theorem run_log_disabled (remote : Nat → RemoteWriteOutcome) (t : String) :
    ∀ (events : List LogEvent) (s : SupLogState),
      s.current_task_id = some t → s.remote_logging_enabled = false →
      run_log true remote s events =
        { s with
          execution_log := s.execution_log ++ events.map (entry_of_event (some t)),
          local_log_file := s.local_log_file ++ events.map (entry_of_event (some t)) } := by
  intro events
  induction events with
  | nil => intro s htid hdis; simp [run_log_nil]
  | cons e rest ih =>
    intro s htid hdis
    have hstep : log_step true remote s e.skill_name e.event e.payload =
        { s with
          execution_log := s.execution_log ++ [entry_of_event (some t) e],
          local_log_file := s.local_log_file ++ [entry_of_event (some t) e] } := by
      simp [log_step, htid, hdis, entry_of_event]
    rw [run_log_cons, hstep, ih _ (by simp [htid]) (by simp [hdis])]
    simp

/-- Processing a sequence of events whose remote writes return booleans
for the first k attempts and raise at attempt k (counted from the
attempts already made) appends every entry to the run log and the local
file, attempts remote writes exactly for the first k + 1 entries, and
leaves remote logging disabled. -/
theorem run_log_until_failure (remote : Nat → RemoteWriteOutcome) (t : String) :
    ∀ (events : List LogEvent) (k : Nat) (s : SupLogState),
      s.current_task_id = some t → s.remote_logging_enabled = true →
      k < events.length →
      (∀ i, i < k → ∃ b, remote (s.remote_attempts.length + i) = .ok b) →
      (∃ m, remote (s.remote_attempts.length + k) = .raises m) →
      run_log true remote s events =
        { s with
          execution_log := s.execution_log ++ events.map (entry_of_event (some t)),
          local_log_file := s.local_log_file ++ events.map (entry_of_event (some t)),
          remote_attempts := s.remote_attempts ++
            (events.map (entry_of_event (some t))).take (k + 1),
          remote_logging_enabled := false } := by
  intro events
  induction events with
  | nil =>
    intro k s _ _ hk
    simp at hk
  | cons e rest ih =>
    intro k s htid hen hk hok hfail
    cases k with
    | zero =>
      obtain ⟨m, hm⟩ := hfail
      rw [Nat.add_zero] at hm
      have hstep : log_step true remote s e.skill_name e.event e.payload =
          { s with
            execution_log := s.execution_log ++ [entry_of_event (some t) e],
            local_log_file := s.local_log_file ++ [entry_of_event (some t) e],
            remote_attempts := s.remote_attempts ++ [entry_of_event (some t) e],
            remote_logging_enabled := false } := by
        simp [log_step, htid, hen, entry_of_event, hm]
      rw [run_log_cons, hstep,
        run_log_disabled remote t rest _ (by simp [htid]) (by simp)]
      simp
    | succ j =>
      obtain ⟨b, hb⟩ := hok 0 (by omega)
      rw [Nat.add_zero] at hb
      have hstep : log_step true remote s e.skill_name e.event e.payload =
          { s with
            execution_log := s.execution_log ++ [entry_of_event (some t) e],
            local_log_file := s.local_log_file ++ [entry_of_event (some t) e],
            remote_attempts := s.remote_attempts ++ [entry_of_event (some t) e] } := by
        simp [log_step, htid, hen, entry_of_event, hb]
      rw [run_log_cons, hstep,
        ih j _ (by simp [htid]) (by simp [hen]) (by simp at hk; omega)
          (fun i hi => by
            obtain ⟨b2, hb2⟩ := hok (i + 1) (by omega)
            exact ⟨b2, by simpa [Nat.add_assoc, Nat.add_comm 1 i] using hb2⟩)
          (by
            obtain ⟨m, hm⟩ := hfail
            exact ⟨m, by simpa [Nat.add_assoc, Nat.add_comm 1 j] using hm⟩)]
      simp

/-- C4: within a task (after set_task_id on a fresh Supervisor, with a
log directory configured), the first remote log write that raises
disables remote logging for all later events of the task — remote
writes are attempted exactly for the entries up to and including the
triggering one — while the in-memory run log and the local append-only
file receive every entry, the triggering entry is in the local file by
the time its remote write is attempted (the attempted entries are a
prefix of the local file), and only a new set_task_id re-enables remote
logging. -/
theorem remote_logging_degradation (remote : Nat → RemoteWriteOutcome)
    (t t2 : String) (events : List LogEvent) (k : Nat)
    (hk : k < events.length)
    (hok : ∀ i, i < k → ∃ b, remote i = .ok b)
    (hfail : ∃ m, remote k = .raises m) :
    (run_log true remote (set_task_id t initial_sup_state) events).execution_log =
      events.map (entry_of_event (some t)) ∧
    (run_log true remote (set_task_id t initial_sup_state) events).local_log_file =
      events.map (entry_of_event (some t)) ∧
    (run_log true remote (set_task_id t initial_sup_state) events).remote_attempts =
      (events.map (entry_of_event (some t))).take (k + 1) ∧
    (run_log true remote (set_task_id t initial_sup_state) events).remote_logging_enabled
      = false ∧
    List.IsPrefix
      (run_log true remote (set_task_id t initial_sup_state) events).remote_attempts
      (run_log true remote (set_task_id t initial_sup_state) events).local_log_file ∧
    (set_task_id t2
      (run_log true remote (set_task_id t initial_sup_state) events)).remote_logging_enabled
      = true := by
  have hrun := run_log_until_failure remote t events k
    (set_task_id t initial_sup_state) rfl rfl hk
    (by simpa [set_task_id, initial_sup_state] using hok)
    (by simpa [set_task_id, initial_sup_state] using hfail)
  rw [hrun]
  refine ⟨by simp [set_task_id, initial_sup_state],
    by simp [set_task_id, initial_sup_state],
    by simp [set_task_id, initial_sup_state],
    rfl, ?_, rfl⟩
  simp only [set_task_id, initial_sup_state, List.nil_append]
  exact List.take_prefix (k + 1) (events.map (entry_of_event (some t)))

/-- Closed instance of C4: three events whose second remote write
raises; all three entries reach the run log and the local file, remote
writes stop after the second entry, and a new task id re-enables remote
logging. -/
theorem remote_logging_degradation_witness :
    (1 < ([⟨"validate_data", "START", none⟩, ⟨"validate_data", "ERROR", some "boom"⟩,
        ⟨"validate_data", "COMPLETE", none⟩] : List LogEvent).length) ∧
    (run_log true
        (fun i => if i = 1 then .raises "timeout" else .ok true)
        (set_task_id "task_1" initial_sup_state)
        [⟨"validate_data", "START", none⟩, ⟨"validate_data", "ERROR", some "boom"⟩,
         ⟨"validate_data", "COMPLETE", none⟩]).local_log_file =
      ([⟨"validate_data", "START", none⟩, ⟨"validate_data", "ERROR", some "boom"⟩,
        ⟨"validate_data", "COMPLETE", none⟩] : List LogEvent).map
        (entry_of_event (some "task_1")) ∧
    (run_log true
        (fun i => if i = 1 then .raises "timeout" else .ok true)
        (set_task_id "task_1" initial_sup_state)
        [⟨"validate_data", "START", none⟩, ⟨"validate_data", "ERROR", some "boom"⟩,
         ⟨"validate_data", "COMPLETE", none⟩]).remote_attempts =
      (([⟨"validate_data", "START", none⟩, ⟨"validate_data", "ERROR", some "boom"⟩,
        ⟨"validate_data", "COMPLETE", none⟩] : List LogEvent).map
        (entry_of_event (some "task_1"))).take 2 := by
  have h := remote_logging_degradation
    (fun i => if i = 1 then .raises "timeout" else .ok true) "task_1" "task_2"
    [⟨"validate_data", "START", none⟩, ⟨"validate_data", "ERROR", some "boom"⟩,
     ⟨"validate_data", "COMPLETE", none⟩] 1
    (by decide)
    (fun i hi => ⟨true, by interval_cases i <;> rfl⟩)
    ⟨"timeout", rfl⟩
  exact ⟨by decide, h.2.1, h.2.2.1⟩

/-- C8: the chunked fetch terminates for every date range and every
fetch behaviour, with recursion depth bounded by the chunk size plus the
range length: the fuel-indexed mirror of the loop, which consumes one
unit of fuel per recursive call and returns none on exhaustion, already
agrees with the loop on any fuel of at least chunk_days + (e + 1 - cur)
+ 1.  The bound rests on the shrink step recursing only for chunk sizes
above 45 with the new size max 30 (chunk_days / 2), strictly below the
old one, while the loop cursor strictly advances through the range. -/
theorem chunk_loop_fuel_adequate (fetch : Nat → Nat → FetchOutcome) :
    ∀ (fuel chunk_days cur e : Nat),
      chunk_days + (e + 1 - cur) + 1 ≤ fuel →
      chunk_loop_fuel fetch fuel chunk_days cur e =
        some (chunk_loop fetch chunk_days cur e) := by
  intro fuel
  induction fuel with
  | zero => intro cd cur e h; omega
  | succ f ih =>
    intro cd cur e h
    rw [chunk_loop_fuel, chunk_loop]
    by_cases hce : cur ≤ e
    · rw [if_pos hce, dif_pos hce]
      have hcur : cur ≤ min (cur + max 1 cd - 1) e := by
        have h1 : 1 ≤ max 1 cd := Nat.le_max_left 1 cd
        exact le_min (by omega) hce
      set ce := min (cur + max 1 cd - 1) e with hcedef
      have hcee : ce ≤ e := min_le_right _ _
      have hadv : cd + (e + 1 - (ce + 1)) + 1 ≤ f := by omega
      cases hf : fetch cur ce with
      | ok rows =>
        simp only [hf]
        rw [ih cd (ce + 1) e hadv]
        cases hrec : chunk_loop fetch cd (ce + 1) e <;> simp
      | timeoutErr err =>
        simp only [hf]
        by_cases h45 : 45 < cd
        · have hmax : max 30 (cd / 2) < cd :=
            Nat.max_lt.mpr ⟨by omega, Nat.div_lt_self (by omega) (by omega)⟩
          have hshrink : max 30 (cd / 2) + (ce + 1 - cur) + 1 ≤ f := by omega
          simp only [h45, if_true]
          rw [ih (max 30 (cd / 2)) cur ce hshrink]
          cases hrec2 : chunk_loop fetch (max 30 (cd / 2)) cur ce with
          | error err2 => simp [Except.map]
          | ok rows2 =>
            simp only [Option.map_some', Except.map]
            rw [ih cd (ce + 1) e hadv]
            cases hrec : chunk_loop fetch cd (ce + 1) e <;> simp
        · simp [h45]
      | otherErr err => simp only [hf]
    · rw [if_neg hce, dif_neg hce]

/-- Closed instance of C8: a fetch that always times out over a 730-day
range at chunk size 365 is evaluated by the fuel mirror within the
stated bound. -/
theorem chunk_loop_fuel_adequate_witness :
    365 + (729 + 1 - 0) + 1 ≤ 1100 ∧
    chunk_loop_fuel (fun _ _ => .timeoutErr (.networkError "timed out")) 1100 365 0 729 =
      some (chunk_loop (fun _ _ => .timeoutErr (.networkError "timed out")) 365 0 729) :=
  ⟨by decide,
   chunk_loop_fuel_adequate (fun _ _ => .timeoutErr (.networkError "timed out"))
     1100 365 0 729 (by decide)⟩

/-! ## The chunked fallback equals the normalized direct fetch (C3) -/

/-- One last-write-wins update looked up at its own key yields the new
row. -/
theorem upsert_find?_self (m : List (Nat × Row)) (k : Nat) (v : Row) :
    ((upsert m k v).find? (fun p => p.1 = k)).map (·.2) = some v := by
  unfold upsert
  by_cases hmem : ((m.find? (fun p => p.1 = k)).isSome : Prop)
  · rw [if_pos hmem]
    rw [List.find?_map]
    obtain ⟨q, hq⟩ := Option.isSome_iff_exists.mp hmem
    have hqk : q.1 = k := by
      have := List.find?_some hq
      simpa using this
    have hcomp : ((fun p => decide (p.1 = k)) ∘ fun p => if p.1 = k then (k, v) else p) =
        fun p : Nat × Row => decide (p.1 = k) := by
      funext p
      by_cases hp : p.1 = k <;> simp [hp]
    rw [hcomp, hq]
    simp [hqk]
  · rw [if_neg hmem]
    rw [List.find?_append]
    rw [Option.not_isSome_iff_eq_none.mp hmem]
    simp

/-- One last-write-wins update leaves lookups at other keys
untouched. -/
theorem upsert_find?_other (m : List (Nat × Row)) (k : Nat) (v : Row) (k2 : Nat)
    (hne : k2 ≠ k) :
    (upsert m k v).find? (fun p => p.1 = k2) = m.find? (fun p => p.1 = k2) := by
  unfold upsert
  by_cases hmem : ((m.find? (fun p => p.1 = k)).isSome : Prop)
  · rw [if_pos hmem]
    rw [List.find?_map]
    have hcomp : ((fun p => decide (p.1 = k2)) ∘ fun p => if p.1 = k then (k, v) else p) =
        fun p : Nat × Row => decide (p.1 = k2) := by
      funext p
      by_cases hp : p.1 = k
      · simp [hp, Ne.symm hne]
      · simp [hp]
    rw [hcomp]
    cases hq : m.find? (fun p => p.1 = k2) with
    | none => simp
    | some q =>
      have hqk : q.1 = k2 := by
        have := List.find?_some hq
        simpa using this
      have : q.1 ≠ k := by rw [hqk]; exact hne
      simp [this]
  · rw [if_neg hmem]
    rw [List.find?_append]
    have : List.find? (fun p => p.1 = k2) [(k, v)] = none := by
      simp [Ne.symm hne]
    rw [this]
    cases m.find? (fun p => p.1 = k2) <;> rfl

/-- Key list of one last-write-wins update: unchanged when the key is
present, appended otherwise. -/
theorem upsert_keys (m : List (Nat × Row)) (k : Nat) (v : Row) :
    (upsert m k v).map (·.1) =
      if (m.find? (fun p => p.1 = k)).isSome then m.map (·.1)
      else m.map (·.1) ++ [k] := by
  unfold upsert
  by_cases hmem : ((m.find? (fun p => p.1 = k)).isSome : Prop)
  · rw [if_pos hmem, if_pos hmem, List.map_map]
    apply List.map_congr_left
    intro p _
    by_cases hp : p.1 = k <;> simp [hp]
  · rw [if_neg hmem, if_neg hmem]
    simp

/-- Building the by_date dict over an extended row list is one more
update step. -/
theorem build_by_date_append (rows : List Row) (r : Row) :
    build_by_date (rows ++ [r]) =
      match r.trade_date with
      | some td => upsert (build_by_date rows) td r
      | none => build_by_date rows := by
  simp [build_by_date, List.foldl_append]

/-- The by_date dict looks up to the last row carrying each date key. -/
theorem build_by_date_find? (k : Nat) (rows : List Row) :
    ((build_by_date rows).find? (fun p => p.1 = k)).map (·.2) =
      (rows.filter (fun r => r.trade_date = some k)).getLast? := by
  induction rows using List.reverseRecOn with
  | nil => rfl
  | append_singleton rows r ih =>
    rw [build_by_date_append, List.filter_append]
    cases htd : r.trade_date with
    | none =>
      have : List.filter (fun r => r.trade_date = some k) [r] = [] := by
        simp [htd]
      simp [this, ih]
    | some td =>
      by_cases hk : td = k
      · subst hk
        have : List.filter (fun r => r.trade_date = some td) [r] = [r] := by
          simp [htd]
        rw [this, upsert_find?_self, List.getLast?_concat]
      · have : List.filter (fun r => r.trade_date = some k) [r] = [] := by
          simp [htd, hk]
        rw [this, List.append_nil, upsert_find?_other _ _ _ _ (Ne.symm hk), ih]

/-- The key list of the by_date dict has the same members as the dated
keys of the rows. -/
theorem build_by_date_keys_mem (rows : List Row) :
    ∀ k2, k2 ∈ (build_by_date rows).map (·.1) ↔ k2 ∈ rows.filterMap (·.trade_date) := by
  induction rows using List.reverseRecOn with
  | nil => intro k2; simp [build_by_date]
  | append_singleton rows r ih =>
    intro k2
    rw [build_by_date_append, List.filterMap_append]
    cases htd : r.trade_date with
    | none => simp [htd, ih]
    | some td =>
      rw [upsert_keys]
      by_cases hmem : (((build_by_date rows).find? (fun p => p.1 = td)).isSome : Prop)
      · rw [if_pos hmem]
        have htdmem : td ∈ rows.filterMap (·.trade_date) := by
          obtain ⟨q, hq⟩ := Option.isSome_iff_exists.mp hmem
          have hqk : q.1 = td := by
            have := List.find?_some hq
            simpa using this
          exact (ih td).mp (List.mem_map.mpr ⟨q, List.mem_of_find?_eq_some hq, hqk⟩)
        simp only [htd, List.filterMap_cons, List.filterMap_nil, List.mem_append,
          List.mem_singleton, ih k2]
        constructor
        · exact Or.inl
        · rintro (h | h)
          · exact h
          · exact h ▸ htdmem
      · rw [if_neg hmem]
        simp [htd, ih k2]

/-- The key list of the by_date dict is duplicate-free. -/
theorem build_by_date_keys_nodup (rows : List Row) :
    ((build_by_date rows).map (·.1)).Nodup := by
  induction rows using List.reverseRecOn with
  | nil => simp [build_by_date]
  | append_singleton rows r ih =>
    rw [build_by_date_append]
    cases htd : r.trade_date with
    | none => exact ih
    | some td =>
      rw [upsert_keys]
      by_cases hmem : (((build_by_date rows).find? (fun p => p.1 = td)).isSome : Prop)
      · rw [if_pos hmem]; exact ih
      · rw [if_neg hmem]
        have htdnot : td ∉ (build_by_date rows).map (·.1) := by
          intro hmem2
          obtain ⟨q, hq, hqk⟩ := List.mem_map.mp hmem2
          have : (build_by_date rows).find? (fun p => p.1 = td) ≠ none := by
            intro hnone
            have := List.find?_eq_none.mp hnone q hq
            simp [hqk] at this
          exact hmem (Option.isSome_iff_ne_none.mpr this)
        rw [List.nodup_append]
        exact ⟨ih, List.nodup_singleton td, by
          intro a ha hb
          simp only [List.mem_singleton] at hb
          subst hb
          exact htdnot ha⟩

/-- The merge step of the chunked fetch computes exactly the spec-side
recombination: de-duplicate by date key with last write winning, sort
ascending by date key. -/
theorem dedup_sort_eq_spec (rows : List Row) :
    dedup_sort rows = spec_dedup_last_sort rows := by
  by_cases hrows : rows = []
  · subst hrows; rfl
  · unfold dedup_sort spec_dedup_last_sort
    rw [if_neg hrows]
    show (List.insertionSort (· ≤ ·) ((build_by_date rows).map (·.1))).filterMap
        (fun k => ((build_by_date rows).find? (fun p => p.1 = k)).map (·.2)) =
      (List.insertionSort (· ≤ ·) ((rows.filterMap (·.trade_date)).dedup)).filterMap
        (fun k => (rows.filter (fun r => r.trade_date = some k)).getLast?)
    have hkeys : List.insertionSort (· ≤ ·) ((build_by_date rows).map (·.1)) =
        List.insertionSort (· ≤ ·) ((rows.filterMap (·.trade_date)).dedup) := by
      have hmid : ((build_by_date rows).map (·.1)).Perm
          ((rows.filterMap (·.trade_date)).dedup) := by
        rw [List.perm_ext_iff_of_nodup (build_by_date_keys_nodup rows)
          (List.nodup_dedup _)]
        intro a
        rw [List.mem_dedup]
        exact build_by_date_keys_mem rows a
      have hperm : (List.insertionSort (· ≤ ·) ((build_by_date rows).map (·.1))).Perm
          (List.insertionSort (· ≤ ·) ((rows.filterMap (·.trade_date)).dedup)) :=
        ((List.perm_insertionSort _ _).trans hmid).trans
          (List.perm_insertionSort _ _).symm
      exact List.eq_of_perm_of_sorted hperm (List.sorted_insertionSort _ _)
        (List.sorted_insertionSort _ _)
    have hfun : (fun k => ((build_by_date rows).find? (fun p => p.1 = k)).map (·.2)) =
        (fun k => (rows.filter (fun r => r.trade_date = some k)).getLast?) :=
      funext (fun k => build_by_date_find? k rows)
    rw [hkeys, hfun]

/-- The spec-side recombination is determined by the per-key row
subsequences: two row lists whose filters agree at every date key merge
to the same result. -/
theorem spec_dedup_congr_keywise (xs ys : List Row)
    (hfil : ∀ k, xs.filter (fun r => r.trade_date = some k) =
      ys.filter (fun r => r.trade_date = some k)) :
    spec_dedup_last_sort xs = spec_dedup_last_sort ys := by
  have hmemdir : ∀ (us vs : List Row),
      (∀ k, us.filter (fun r => r.trade_date = some k) =
        vs.filter (fun r => r.trade_date = some k)) →
      ∀ k, k ∈ us.filterMap (·.trade_date) → k ∈ vs.filterMap (·.trade_date) := by
    intro us vs hf k h
    obtain ⟨r, hr, hrk⟩ := List.mem_filterMap.mp h
    have hrmem : r ∈ us.filter (fun r => r.trade_date = some k) :=
      List.mem_filter.mpr ⟨hr, by simp [hrk]⟩
    rw [hf k] at hrmem
    obtain ⟨hry, hkey⟩ := List.mem_filter.mp hrmem
    exact List.mem_filterMap.mpr ⟨r, hry, by simpa using hkey⟩
  unfold spec_dedup_last_sort
  show (List.insertionSort (· ≤ ·) ((xs.filterMap (·.trade_date)).dedup)).filterMap
      (fun k => (xs.filter (fun r => r.trade_date = some k)).getLast?) =
    (List.insertionSort (· ≤ ·) ((ys.filterMap (·.trade_date)).dedup)).filterMap
      (fun k => (ys.filter (fun r => r.trade_date = some k)).getLast?)
  have hkeys : List.insertionSort (· ≤ ·) ((xs.filterMap (·.trade_date)).dedup) =
      List.insertionSort (· ≤ ·) ((ys.filterMap (·.trade_date)).dedup) := by
    have hmid : ((xs.filterMap (·.trade_date)).dedup).Perm
        ((ys.filterMap (·.trade_date)).dedup) := by
      rw [List.perm_ext_iff_of_nodup (List.nodup_dedup _) (List.nodup_dedup _)]
      intro a
      rw [List.mem_dedup, List.mem_dedup]
      exact ⟨hmemdir xs ys hfil a, hmemdir ys xs (fun k => (hfil k).symm) a⟩
    have hperm : (List.insertionSort (· ≤ ·) ((xs.filterMap (·.trade_date)).dedup)).Perm
        (List.insertionSort (· ≤ ·) ((ys.filterMap (·.trade_date)).dedup)) :=
      ((List.perm_insertionSort _ _).trans hmid).trans
        (List.perm_insertionSort _ _).symm
    exact List.eq_of_perm_of_sorted hperm (List.sorted_insertionSort _ _)
      (List.sorted_insertionSort _ _)
  have hfun : (fun k => (xs.filter (fun r => r.trade_date = some k)).getLast?) =
      (fun k => (ys.filter (fun r => r.trade_date = some k)).getLast?) :=
    funext (fun k => by rw [hfil k])
  rw [hkeys, hfun]

/-- The chunk walk of _get_continuous_chunked specialised to a backend
that answers every sub-range: the concatenation of the direct sub-range
results over the consecutive chunks. -/
def chunk_concat (L : List Row) (cd : Nat) : (cur e : Nat) → List Row
  | cur, e =>
    if h : cur ≤ e then
      rowsIn L cur (min (cur + max 1 cd - 1) e) ++
        chunk_concat L cd (min (cur + max 1 cd - 1) e + 1) e
    else []
termination_by cur e => e + 1 - cur
decreasing_by
  have hcur : cur ≤ min (cur + max 1 cd - 1) e := by
    have h1 : 1 ≤ max 1 cd := Nat.le_max_left 1 cd
    exact le_min (by omega) h
  omega

/-- With a fetch that never fails, the chunk loop succeeds with the
concatenation of the per-chunk rows. -/
theorem chunk_loop_ok (L : List Row) (cd : Nat) :
    ∀ n cur e, e + 1 - cur ≤ n →
      chunk_loop (fun a b => .ok (rowsIn L a b)) cd cur e =
        .ok (chunk_concat L cd cur e) := by
  intro n
  induction n with
  | zero =>
    intro cur e h
    rw [chunk_loop, chunk_concat, dif_neg (by omega), dif_neg (by omega)]
  | succ m ih =>
    intro cur e h
    rw [chunk_loop, chunk_concat]
    by_cases hce : cur ≤ e
    · rw [dif_pos hce, dif_pos hce]
      have hcur : cur ≤ min (cur + max 1 cd - 1) e := by
        have h1 : 1 ≤ max 1 cd := Nat.le_max_left 1 cd
        exact le_min (by omega) hce
      dsimp only
      rw [ih (min (cur + max 1 cd - 1) e + 1) e (by
        have hcee : min (cur + max 1 cd - 1) e ≤ e := min_le_right _ _
        omega)]
    · rw [dif_neg hce, dif_neg hce]

/-- The rows of a direct range fetch carrying a given date key: all of
the backend rows with that key when it lies in the range, none
otherwise. -/
theorem rowsIn_filter_key (L : List Row) (a b k : Nat) :
    (rowsIn L a b).filter (fun r => r.trade_date = some k) =
      if a ≤ k ∧ k ≤ b then L.filter (fun r => r.trade_date = some k) else [] := by
  unfold rowsIn
  rw [List.filter_filter]
  by_cases hk : a ≤ k ∧ k ≤ b
  · rw [if_pos hk]
    apply List.filter_congr
    intro r _
    cases htd : r.trade_date with
    | none => simp [htd]
    | some d =>
      by_cases hdk : d = k
      · subst hdk
        simp [htd, hk.1, hk.2]
      · simp [htd, hdk]
  · rw [if_neg hk]
    rw [List.filter_eq_nil_iff]
    intro r _
    cases htd : r.trade_date with
    | none => simp [htd]
    | some d =>
      by_cases hdk : d = k
      · subst hdk
        simp only [htd, Bool.and_eq_true, decide_eq_true_eq, not_and]
        intro _
        omega
      · simp [htd, hdk]

/-- The per-key rows of the chunk concatenation agree with the per-key
rows of a direct fetch of the whole range. -/
theorem chunk_concat_filter_key (L : List Row) (cd k : Nat) :
    ∀ n cur e, e + 1 - cur ≤ n →
      (chunk_concat L cd cur e).filter (fun r => r.trade_date = some k) =
        if cur ≤ k ∧ k ≤ e then L.filter (fun r => r.trade_date = some k)
        else [] := by
  intro n
  induction n with
  | zero =>
    intro cur e h
    rw [chunk_concat, dif_neg (by omega), if_neg (by omega)]
    rfl
  | succ m ih =>
    intro cur e h
    rw [chunk_concat]
    by_cases hce : cur ≤ e
    · rw [dif_pos hce]
      have hcur : cur ≤ min (cur + max 1 cd - 1) e := by
        have h1 : 1 ≤ max 1 cd := Nat.le_max_left 1 cd
        exact le_min (by omega) hce
      have hcee : min (cur + max 1 cd - 1) e ≤ e := min_le_right _ _
      rw [List.filter_append, rowsIn_filter_key,
        ih (min (cur + max 1 cd - 1) e + 1) e (by omega)]
      by_cases h1 : cur ≤ k ∧ k ≤ min (cur + max 1 cd - 1) e
      · rw [if_pos h1, if_neg (by omega), if_pos (by omega), List.append_nil]
      · rw [if_neg h1]
        by_cases h2 : min (cur + max 1 cd - 1) e + 1 ≤ k ∧ k ≤ e
        · rw [if_pos h2, if_pos (by omega), List.nil_append]
        · rw [if_neg h2, if_neg (by omega), List.append_nil]
    · rw [dif_neg hce, if_neg (by omega)]
      rfl

/-- C3: for every date range, the chunked fallback fetch against a
backend whose direct range reads return the dated rows of a fixed row
list succeeds and returns exactly the normalization the spec prescribes
of the single direct fetch of the whole range: its rows de-duplicated by
date key with the last occurrence winning and sorted ascending by date
key, row for row. -/
theorem chunked_fetch_matches_direct (L : List Row) (s e : Nat) :
    get_continuous_chunked (fun a b => .ok (rowsIn L a b)) 365 s e =
      .ok (spec_dedup_last_sort (rowsIn L s e)) := by
  rw [get_continuous_chunked, chunk_loop_ok L 365 (e + 1 - s) s e (le_refl _)]
  show Except.ok (dedup_sort (chunk_concat L 365 s e)) =
    Except.ok (spec_dedup_last_sort (rowsIn L s e))
  rw [dedup_sort_eq_spec]
  have := spec_dedup_congr_keywise (chunk_concat L 365 s e) (rowsIn L s e)
    (fun k => by
      rw [chunk_concat_filter_key L 365 k (e + 1 - s) s e (le_refl _),
        rowsIn_filter_key])
  rw [this]

end Clawdbot
